import Mathlib

/-!
Verification of the observable-collection core of this repository: the
base subscription mechanism (`BaseObservable`), the binary-search and
find-and-update utilities, the `FilteredList` operator, the `JoinedMap`
operator with key occlusion, and the `ApplyMap` operator.

Source collections are embedded as plain Lean lists: an observable map is
a list of key/value entries in iteration order (key lookup is first-entry
lookup, mirroring the uniqueness of keys inside one map), and an
observable list is a `List` of its elements.  The handlers of each
operator are embedded as pure functions from the operator's state and the
incoming event to the new state and the list of events the operator emits,
in emission order.  Absent values (`undefined` in the source) are
`Option.none`.
-/

/-- A map event emitted by an observable map, in the order the source
emits them.  The opaque `params` payload of update events is forwarded
unchanged by every operator modelled here and is not represented. -/
inductive MapEvent (K V : Type) where
  | add (k : K) (v : V)
  | remove (k : K) (v : V)
  | update (k : K) (v : V)
  deriving DecidableEq, Repr

/-- The value for a key in the lowest-indexed source that contains the
key, scanning the sources in order and returning the first lookup that
yields a value.  This mirrors the scan loops of the joined map
(`_getValueFromOccludedSources` scans the sources after an index with
`get(key) !== undefined`) and formalises the specification's phrase
"the value from the lowest-indexed source that currently contains the
key". -/
def firstLookup {K V : Type} [BEq K] : List (List (K × V)) → K → Option V
  | [], _ => none
  | s :: rest, k =>
    match s.lookup k with
    | some v => some v
    | none => firstLookup rest k

/-- State of a `JoinedMap` at the moment an event is delivered: the
current contents of its ordered list of source maps, and whether the
`_subscriptions` field is non-null (it is null until `onSubscribeFirst`
has finished subscribing to every source). -/
structure JoinedMap (K V : Type) where
  sources : List (List (K × V))
  subscriptionsInitialized : Bool

namespace JoinedMap

variable {K V : Type} [BEq K]

/-- Embedding of `JoinedMap._isKeyAtSourceOccluded`: true iff some source
strictly before `index` currently contains `k` (its `get` is not
`undefined`). -/
def isKeyAtSourceOccluded (m : JoinedMap K V) (index : Nat) (k : K) : Bool :=
  (m.sources.take index).any fun s => (s.lookup k).isSome

/-- Embedding of `JoinedMap._getValueFromOccludedSources`: the value held
for `k` by the first source strictly after `index`, if any. -/
def getValueFromOccludedSources (m : JoinedMap K V) (index : Nat) (k : K) : Option V :=
  firstLookup (m.sources.drop (index + 1)) k

/-- Embedding of `JoinedMap.onAdd` for an add of `(k, v)` originating at
the source with position `index`: the list of events the joined map
emits.  The field `subscriptionsInitialized` is not consulted, exactly as
the source method never reads `_subscriptions`. -/
def onAdd (m : JoinedMap K V) (index : Nat) (k : K) (v : V) : List (MapEvent K V) :=
  if m.isKeyAtSourceOccluded index k then []
  else
    match m.getValueFromOccludedSources index k with
    | some occludingValue => [.remove k occludingValue, .add k v]
    | none => [.add k v]

/-- Embedding of `JoinedMap.onRemove` for a remove of `(k, v)`
originating at the source with position `index`. -/
def onRemove (m : JoinedMap K V) (index : Nat) (k : K) (v : V) : List (MapEvent K V) :=
  if m.isKeyAtSourceOccluded index k then []
  else
    .remove k v ::
      (match m.getValueFromOccludedSources index k with
       | some occludedValue => [.add k occludedValue]
       | none => [])

/-- Embedding of `JoinedMap.onUpdate`: an update is dropped outright
while `_subscriptions` is still null, and otherwise forwarded unless the
key is occluded at its source. -/
def onUpdate (m : JoinedMap K V) (index : Nat) (k : K) (v : V) : List (MapEvent K V) :=
  if !m.subscriptionsInitialized then []
  else if m.isKeyAtSourceOccluded index k then []
  else [.update k v]

end JoinedMap

/-- The occlusion-transition property of the joined map, claim C1: when a
non-occluded source gains a key that a strictly-later source also holds,
the joined map emits the remove of the later (previously visible) value
and then the add of the new value; when a non-occluded source loses a key
that a strictly-later source holds, it emits the remove of the removed
value and then the add of the now-visible later value. -/
theorem joinedMap_occlusion_transition {K V : Type} [BEq K]
    (m : JoinedMap K V) (index : Nat) (k : K) (v w : V)
    (hnotOccluded : m.isKeyAtSourceOccluded index k = false)
    (hlater : m.getValueFromOccludedSources index k = some w) :
    m.onAdd index k v = [.remove k w, .add k v] ∧
    m.onRemove index k v = [.remove k v, .add k w] := by
  constructor
  · simp [JoinedMap.onAdd, hnotOccluded, hlater]
  · simp [JoinedMap.onRemove, hnotOccluded, hlater]

/-- Witness for claim C1 at the repository's own test scenario: sources
`[first, second]` with `second` holding `("a", 2)`; an add of `("a", 1)`
at `first` emits `remove("a", 2)` then `add("a", 1)`, and a remove of
`("a", 1)` at `first` emits `remove("a", 1)` then `add("a", 2)`. -/
theorem joinedMap_occlusion_transition_witness :
    (JoinedMap.mk (K := String) (V := Int) [[], [("a", 2)]] true).isKeyAtSourceOccluded 0 "a"
        = false ∧
    (JoinedMap.mk (K := String) (V := Int) [[], [("a", 2)]] true).getValueFromOccludedSources 0 "a"
        = some 2 ∧
    (JoinedMap.mk (K := String) (V := Int) [[], [("a", 2)]] true).onAdd 0 "a" 1
        = [.remove "a" 2, .add "a" 1] ∧
    (JoinedMap.mk (K := String) (V := Int) [[], [("a", 2)]] true).onRemove 0 "a" 1
        = [.remove "a" 1, .add "a" 2] := by
  refine ⟨by decide, by decide, ?_⟩
  exact joinedMap_occlusion_transition
    (JoinedMap.mk [[], [("a", 2)]] true) 0 "a" 1 2 (by decide) (by decide)

/-- Embedding of `JoinedIterator.next` run to exhaustion: `seen` is the
`_encounteredKeys` set, `current` the remainder of the current source's
iterator, and `rest` the sources not yet started.  Entries whose key was
already encountered are skipped; new keys are recorded and yielded. -/
def joinedIterGo {K V : Type} [BEq K] (seen : List K) :
    List (K × V) → List (List (K × V)) → List (K × V)
  | [], [] => []
  | [], src :: rest => joinedIterGo seen src rest
  | (k, v) :: current, rest =>
    if seen.contains k then joinedIterGo seen current rest
    else (k, v) :: joinedIterGo (k :: seen) current rest
  termination_by current rest => (rest, current)

/-- The full sequence of entries yielded by iterating a `JoinedMap` whose
sources currently hold `sources`, via `JoinedIterator`. -/
def joinedEntries {K V : Type} [BEq K] (sources : List (List (K × V))) : List (K × V) :=
  joinedIterGo [] [] sources

/-- First-occurrence key dedup over one entry list: keeps an entry iff its
key is neither in `seen` nor in an earlier kept entry. -/
def dedupFirst {K V : Type} [BEq K] (seen : List K) : List (K × V) → List (K × V)
  | [] => []
  | (k, v) :: rest =>
    if seen.contains k then dedupFirst seen rest
    else (k, v) :: dedupFirst (k :: seen) rest

theorem joinedIterGo_eq_dedupFirst {K V : Type} [BEq K] (seen : List K)
    (current : List (K × V)) (rest : List (List (K × V))) :
    joinedIterGo seen current rest = dedupFirst seen (current ++ rest.flatten) := by
  induction rest generalizing seen current with
  | nil =>
    induction current generalizing seen with
    | nil => simp [joinedIterGo, dedupFirst]
    | cons e current ih =>
      obtain ⟨k, v⟩ := e
      rw [joinedIterGo]
      by_cases hk : seen.contains k
      · simp [hk, dedupFirst, ih]
      · simp [hk, dedupFirst, ih]
  | cons src rest ihrest =>
    induction current generalizing seen with
    | nil =>
      rw [joinedIterGo, ihrest]
      simp
    | cons e current ih =>
      obtain ⟨k, v⟩ := e
      rw [joinedIterGo]
      by_cases hk : seen.contains k
      · simp [hk, dedupFirst, ih]
      · simp [hk, dedupFirst, ih]

theorem dedupFirst_sublist {K V : Type} [BEq K] (seen : List K) (l : List (K × V)) :
    (dedupFirst seen l).Sublist l := by
  induction l generalizing seen with
  | nil => simp [dedupFirst]
  | cons e rest ih =>
    obtain ⟨k, v⟩ := e
    rw [dedupFirst]
    by_cases hk : seen.contains k
    · simp only [hk, if_true]
      exact (ih seen).trans (List.sublist_cons_self _ _)
    · simp only [hk, if_false]
      exact (ih (k :: seen)).cons₂ _

theorem mem_dedupFirst_key_not_seen {K V : Type} [BEq K] [LawfulBEq K]
    (seen : List K) (l : List (K × V)) (k : K) (v : V)
    (hmem : (k, v) ∈ dedupFirst seen l) : k ∉ seen := by
  induction l generalizing seen with
  | nil => simp [dedupFirst] at hmem
  | cons e rest ih =>
    obtain ⟨k', v'⟩ := e
    rw [dedupFirst] at hmem
    cases hk : seen.contains k' with
    | true =>
      rw [hk, if_pos rfl] at hmem
      exact ih seen hmem
    | false =>
      rw [hk] at hmem
      simp only [Bool.false_eq_true, if_false, List.mem_cons] at hmem
      rcases hmem with heq | hmem
      · have hkeq : k = k' := congrArg Prod.fst heq
        subst hkeq
        simpa using hk
      · have := ih (k' :: seen) hmem
        intro hin
        exact this (List.mem_cons_of_mem _ hin)

theorem dedupFirst_keys_nodup {K V : Type} [BEq K] [LawfulBEq K]
    (seen : List K) (l : List (K × V)) :
    ((dedupFirst seen l).map Prod.fst).Nodup := by
  induction l generalizing seen with
  | nil => simp [dedupFirst]
  | cons e rest ih =>
    obtain ⟨k, v⟩ := e
    rw [dedupFirst]
    cases hk : seen.contains k with
    | true =>
      rw [if_pos rfl]
      exact ih seen
    | false =>
      simp only [Bool.false_eq_true, if_false, List.map_cons, List.nodup_cons]
      refine ⟨?_, ih (k :: seen)⟩
      intro hin
      obtain ⟨⟨k', v'⟩, hmem, hfst⟩ := List.mem_map.mp hin
      cases hfst
      exact mem_dedupFirst_key_not_seen _ _ _ _ hmem (List.mem_cons_self _ _)

theorem dedupFirst_lookup {K V : Type} [BEq K] [LawfulBEq K]
    (seen : List K) (l : List (K × V)) (k : K) (hk : k ∉ seen) :
    (dedupFirst seen l).lookup k = l.lookup k := by
  induction l generalizing seen with
  | nil => simp [dedupFirst]
  | cons e rest ih =>
    obtain ⟨k', v'⟩ := e
    rw [dedupFirst]
    by_cases hkk : k = k'
    · subst hkk
      have hc : seen.contains k = false := by simpa using hk
      rw [hc]
      simp only [Bool.false_eq_true, if_false]
      rw [List.lookup_cons, List.lookup_cons]
      simp
    · have hbeq : (k == k') = false := by simpa using hkk
      cases hseen : seen.contains k' with
      | true =>
        rw [if_pos rfl, ih seen hk, List.lookup_cons]
        simp [hbeq]
      | false =>
        simp only [Bool.false_eq_true, if_false]
        rw [List.lookup_cons, List.lookup_cons]
        simp only [hbeq]
        exact ih (k' :: seen) (by simp [hkk, hk])

theorem lookup_append {K V : Type} [BEq K] (l₁ l₂ : List (K × V)) (k : K) :
    (l₁ ++ l₂).lookup k = ((l₁.lookup k).rec (l₂.lookup k) fun v => some v) := by
  induction l₁ with
  | nil => simp
  | cons e rest ih =>
    obtain ⟨k', v'⟩ := e
    rw [List.cons_append, List.lookup_cons, List.lookup_cons]
    cases h : k == k' <;> simp [ih]

theorem firstLookup_eq_lookup_flatten {K V : Type} [BEq K]
    (sources : List (List (K × V))) (k : K) :
    firstLookup sources k = sources.flatten.lookup k := by
  induction sources with
  | nil => simp [firstLookup]
  | cons s rest ih =>
    rw [firstLookup, List.flatten_cons, lookup_append, ih]
    cases h : s.lookup k <;> simp

/-- Claim C2: iterating a `JoinedMap` yields each key at most once, in
source order then per-source iteration order (the yielded entries form a
sublist of the concatenation of the sources), and the value yielded for a
key is the one from the lowest-indexed source that contains that key;
hence entries for a key held by later sources are never yielded. -/
theorem joinedMap_iteration_first_source_wins {K V : Type} [BEq K] [LawfulBEq K]
    (sources : List (List (K × V))) :
    ((joinedEntries sources).map Prod.fst).Nodup ∧
    (joinedEntries sources).Sublist sources.flatten ∧
    ∀ k, (joinedEntries sources).lookup k = firstLookup sources k := by
  have hentries : joinedEntries sources = dedupFirst [] sources.flatten := by
    rw [joinedEntries, joinedIterGo_eq_dedupFirst]
    simp
  refine ⟨?_, ?_, ?_⟩
  · rw [hentries]; exact dedupFirst_keys_nodup [] _
  · rw [hentries]; exact dedupFirst_sublist [] _
  · intro k
    rw [hentries, dedupFirst_lookup [] _ k (by simp), firstLookup_eq_lookup_flatten]

/-- A JavaScript value as far as truthiness is concerned: numbers,
strings, booleans and `null`.  `undefined` is represented as absence
(`Option.none`). -/
inductive JSVal where
  | num (n : Int)
  | str (s : String)
  | bool (b : Bool)
  | jsNull
  deriving DecidableEq, Repr

/-- JavaScript truthiness of a value: `0`, the empty string, `false` and
`null` are falsy. -/
def JSVal.truthy : JSVal → Bool
  | num n => n != 0
  | str s => s != ""
  | bool b => b
  | jsNull => false

/-- Embedding of `JoinedMap.get`: scan the sources in order; for each,
read `value = s.get(key)` and return it if `if (value)` holds — a
truthiness test, not an `!== undefined` test.  `none` plays the role of
`undefined`, both when a source lacks the key and as the final result. -/
def joinedGet {K : Type} [BEq K] : List (List (K × JSVal))  → K → Option JSVal
  | [], _ => none
  | s :: rest, k =>
    match s.lookup k with
    | some v => if v.truthy then some v else joinedGet rest k
    | none => joinedGet rest k

/-- Claim C8 is a code bug: `JoinedMap.get` tests the looked-up value for
truthiness (`if (value)`) rather than for presence (`!== undefined`), so
falsy stored values are skipped.  With a single source holding
`{"a": 0}`, `get("a")` returns `undefined` although the lowest-indexed
source contains the key; with sources `[{"a": 0}, {"a": 5}]` it returns
`5`, the value of the *later* source.  `firstLookup` is the value from
the lowest-indexed source containing the key, which the claim (and the
iterator, per `joinedMap_iteration_first_source_wins`) prescribe. -/
theorem joinedMap_get_skips_falsy_values :
    joinedGet [[("a", JSVal.num 0)]] "a" = none ∧
    firstLookup [[("a", JSVal.num 0)]] "a" = some (JSVal.num 0) ∧
    joinedGet [[("a", JSVal.num 0)], [("a", JSVal.num 5)]] "a" = some (JSVal.num 5) ∧
    firstLookup [[("a", JSVal.num 0)], [("a", JSVal.num 5)]] "a" = some (JSVal.num 0) := by
  refine ⟨by decide, by decide, by decide, by decide⟩

/-- Claim C4's counterexample: a `JoinedMap` whose `_subscriptions` field
is still null (derived state not yet initialized) does *not* discard an
incoming add — `onAdd` never consults `_subscriptions`, so the event is
processed and an add is emitted.  Here the uninitialized joined map over
two empty sources receives `add(0, 1)` at source 0 and emits an add. -/
theorem joinedMap_uninitialized_add_not_discarded :
    (JoinedMap.mk (K := Nat) (V := Nat) [[], []] false).onAdd 0 0 1 = [.add 0 1] := by
  decide

/-- Embedding of `MappedList.onUpdate`.  The cache `_mappedValues` is
`none` until `onSubscribeFirst` builds it.  The non-null branch delegates
to `runUpdate` (defined in `BaseMappedList`, outside the analyzed
sources); the embedding is parametric in that function, which maps the
cache and the incoming update to the new cache and the emitted events. -/
def mappedListOnUpdate {F T E : Type}
    (runUpdate : List T → Nat → F → List T × List E)
    (mappedValues : Option (List T)) (index : Nat) (value : F) :
    Option (List T) × List E :=
  match mappedValues with
  | none => (none, [])
  | some cache =>
    let r := runUpdate cache index value
    (some r.1, r.2)

/-- The amended claim C4: the reentrancy guards that exist in the code
are exactly the ones in the update handlers — `MappedList.onUpdate` and
`JoinedMap.onUpdate` return no event and leave state untouched while the
derived state (`_mappedValues`, `_subscriptions`) is uninitialized,
whatever the incoming update and whatever `runUpdate` would do.  (The
add/remove/move/reset handlers have no such guard, per
`joinedMap_uninitialized_add_not_discarded`.) -/
theorem update_discarded_while_uninitialized {K V F T E : Type} [BEq K]
    (sources : List (List (K × V))) (index : Nat) (k : K) (v : V)
    (runUpdate : List T → Nat → F → List T × List E) (i : Nat) (value : F) :
    (JoinedMap.mk sources false).onUpdate index k v = [] ∧
    mappedListOnUpdate runUpdate none i value = (none, []) := by
  constructor
  · rfl
  · rfl

/-- State of a `BaseObservable`: the handler set (a JS `Set`, modelled as
a duplicate-free list — `List.insert` is `Set.add`, `List.erase` is
`Set.delete`, `length` is `size`) together with counters for how many
times the `onSubscribeFirst` and `onUnsubscribeLast` hooks have run. -/
structure ObsState (H : Type) where
  handlers : List H
  subscribeFirstCalls : Nat
  unsubscribeLastCalls : Nat
  deriving DecidableEq, Repr

namespace BaseObservable

variable {H : Type} [BEq H]

/-- Embedding of `BaseObservable.subscribe`: add the handler to the set,
and if the set's size is 1 afterwards, run `onSubscribeFirst`. -/
def subscribe (st : ObsState H) (h : H) : ObsState H :=
  let hs := st.handlers.insert h
  { handlers := hs
    subscribeFirstCalls :=
      if hs.length = 1 then st.subscribeFirstCalls + 1 else st.subscribeFirstCalls
    unsubscribeLastCalls := st.unsubscribeLastCalls }

/-- Embedding of `BaseObservable.unsubscribe`: a null handler is a no-op;
otherwise delete the handler from the set and, if the set's size is 0
afterwards — whether or not this call removed anything — run
`onUnsubscribeLast`. -/
def unsubscribe (st : ObsState H) (h : Option H) : ObsState H :=
  match h with
  | none => st
  | some h =>
    let hs := st.handlers.erase h
    { handlers := hs
      subscribeFirstCalls := st.subscribeFirstCalls
      unsubscribeLastCalls :=
        if hs.length = 0 then st.unsubscribeLastCalls + 1 else st.unsubscribeLastCalls }

/-- One call into a `BaseObservable`: a `subscribe(handler)` or an
`unsubscribe(handler | null)`; the closure returned by `subscribe` calls
`unsubscribe` with the captured handler each time it is invoked. -/
inductive ObsOp (H : Type) where
  | sub (h : H)
  | unsub (h : Option H)
  deriving DecidableEq, Repr

/-- Apply one call to the observable's state. -/
def applyOp (st : ObsState H) : ObsOp H → ObsState H
  | .sub h => subscribe st h
  | .unsub h => unsubscribe st h

/-- Apply a sequence of calls in order. -/
def applyOps (st : ObsState H) (ops : List (ObsOp H)) : ObsState H :=
  ops.foldl applyOp st

/-- The state of a freshly constructed observable: empty handler set and
no hook invocations. -/
def initial (H : Type) : ObsState H := { handlers := [], subscribeFirstCalls := 0, unsubscribeLastCalls := 0 }

/-- A call sequence is non-redundant for a given current handler set when
every subscribe adds a handler not yet present and every non-null
unsubscribe removes a handler that is present. -/
def nonRedundant (hs : List H) : List (ObsOp H) → Bool
  | [] => true
  | .sub h :: rest => !hs.contains h && nonRedundant (hs.insert h) rest
  | .unsub none :: rest => nonRedundant hs rest
  | .unsub (some h) :: rest => hs.contains h && nonRedundant (hs.erase h) rest

/-- The number of 0-to-1 transitions of the handler-set size along a
non-redundant call sequence starting from handler set `hs`. -/
def transitionsUp (hs : List H) : List (ObsOp H) → Nat
  | [] => 0
  | .sub h :: rest => (if hs.length = 0 then 1 else 0) + transitionsUp (hs.insert h) rest
  | .unsub none :: rest => transitionsUp hs rest
  | .unsub (some h) :: rest => transitionsUp (hs.erase h) rest

/-- The number of 1-to-0 transitions of the handler-set size along a
non-redundant call sequence starting from handler set `hs`. -/
def transitionsDown (hs : List H) : List (ObsOp H) → Nat
  | [] => 0
  | .sub h :: rest => transitionsDown (hs.insert h) rest
  | .unsub none :: rest => transitionsDown hs rest
  | .unsub (some h) :: rest => (if hs.length = 1 then 1 else 0) + transitionsDown (hs.erase h) rest

end BaseObservable

/-- Claim C5's counterexample: `unsubscribe` runs `onUnsubscribeLast`
whenever the handler set is empty *after* the delete, not only on an
actual 1-to-0 transition.  Subscribing one handler and then calling the
returned unsubscribe closure twice therefore runs `onUnsubscribeLast`
twice — the second unsubscribe is not a no-op as the claim states. -/
theorem double_unsubscribe_runs_hook_twice :
    (BaseObservable.applyOps (BaseObservable.initial Nat)
      [.sub 0, .unsub (some 0), .unsub (some 0)]).unsubscribeLastCalls = 2 := by
  decide

theorem applyOps_transition_counts {H : Type} [BEq H] [LawfulBEq H]
    (ops : List (BaseObservable.ObsOp H)) :
    ∀ st : ObsState H, BaseObservable.nonRedundant st.handlers ops = true →
      (BaseObservable.applyOps st ops).subscribeFirstCalls
          = st.subscribeFirstCalls + BaseObservable.transitionsUp st.handlers ops ∧
      (BaseObservable.applyOps st ops).unsubscribeLastCalls
          = st.unsubscribeLastCalls + BaseObservable.transitionsDown st.handlers ops := by
  induction ops with
  | nil => intro st _; simp [BaseObservable.applyOps, BaseObservable.transitionsUp,
      BaseObservable.transitionsDown]
  | cons op rest ih =>
    intro st hnr
    cases op with
    | sub h =>
      rw [BaseObservable.nonRedundant] at hnr
      have hmem : st.handlers.contains h = false := by
        cases hc : st.handlers.contains h
        · rfl
        · rw [hc] at hnr; simp at hnr
      have hrest : BaseObservable.nonRedundant (st.handlers.insert h) rest = true := by
        rw [hmem] at hnr; simpa using hnr
      have hins : st.handlers.insert h = h :: st.handlers :=
        List.insert_of_not_mem (by simpa using hmem)
      have hstep : BaseObservable.applyOps st (.sub h :: rest)
          = BaseObservable.applyOps (BaseObservable.subscribe st h) rest := rfl
      rw [hstep, BaseObservable.transitionsUp, BaseObservable.transitionsDown]
      have hsub : (BaseObservable.subscribe st h).handlers = st.handlers.insert h := rfl
      obtain ⟨ih1, ih2⟩ := ih (BaseObservable.subscribe st h) (hsub ▸ hrest)
      rw [ih1, ih2, hsub]
      constructor
      · simp only [BaseObservable.subscribe, hins, List.length_cons]
        by_cases hlen : st.handlers.length = 0
        · simp only [hlen, if_pos]
          omega
        · have hne : ¬ (st.handlers.length + 1 = 1) := by omega
          simp only [hlen, hne, if_neg, if_false]
          omega
      · rfl
    | unsub ho =>
      cases ho with
      | none =>
        rw [BaseObservable.nonRedundant] at hnr
        have hstep : BaseObservable.applyOps st (.unsub none :: rest)
            = BaseObservable.applyOps st rest := rfl
        rw [hstep, BaseObservable.transitionsUp, BaseObservable.transitionsDown]
        exact ih st hnr
      | some h =>
        rw [BaseObservable.nonRedundant] at hnr
        have hmem : st.handlers.contains h = true := by
          cases hc : st.handlers.contains h
          · rw [hc] at hnr; simp at hnr
          · rfl
        have hrest : BaseObservable.nonRedundant (st.handlers.erase h) rest = true := by
          rw [hmem] at hnr; simpa using hnr
        have hstep : BaseObservable.applyOps st (.unsub (some h) :: rest)
            = BaseObservable.applyOps (BaseObservable.unsubscribe st (some h)) rest := rfl
        rw [hstep, BaseObservable.transitionsUp, BaseObservable.transitionsDown]
        have huns : (BaseObservable.unsubscribe st (some h)).handlers = st.handlers.erase h := rfl
        obtain ⟨ih1, ih2⟩ := ih (BaseObservable.unsubscribe st (some h)) (huns ▸ hrest)
        rw [ih1, ih2, huns]
        have hlenerase : (st.handlers.erase h).length = st.handlers.length - 1 :=
          List.length_erase_of_mem (by simpa using hmem)
        have hpos : 0 < st.handlers.length :=
          List.length_pos_of_mem (by simpa using hmem)
        constructor
        · rfl
        · simp only [BaseObservable.unsubscribe, hlenerase]
          by_cases hone : st.handlers.length = 1
          · have h0 : st.handlers.length - 1 = 0 := by omega
            simp only [hone, h0, if_pos]
            omega
          · have h0 : ¬ (st.handlers.length - 1 = 0) := by omega
            simp only [h0, hone, if_neg, if_false]
            omega

/-- The amended claim C5: on a freshly constructed observable, along any
sequence of `subscribe` and `unsubscribe` calls that is non-redundant (no
subscribe of an already-present handler, no unsubscribe of an absent
one; `unsubscribe(null)` allowed anywhere), `onSubscribeFirst` runs
exactly once per 0-to-1 transition of the handler-set size and
`onUnsubscribeLast` exactly once per 1-to-0 transition.  The guard the
original claim asserts for redundant calls does not exist: see
`double_unsubscribe_runs_hook_twice`. -/
theorem baseObservable_hooks_count_transitions {H : Type} [BEq H] [LawfulBEq H]
    (ops : List (BaseObservable.ObsOp H))
    (hnr : BaseObservable.nonRedundant ([] : List H) ops = true) :
    (BaseObservable.applyOps (BaseObservable.initial H) ops).subscribeFirstCalls
        = BaseObservable.transitionsUp [] ops ∧
    (BaseObservable.applyOps (BaseObservable.initial H) ops).unsubscribeLastCalls
        = BaseObservable.transitionsDown [] ops := by
  have := applyOps_transition_counts ops (BaseObservable.initial H) hnr
  simpa [BaseObservable.initial] using this

/-- Witness for the amended claim C5: subscribe a handler, unsubscribe
it, subscribe it again — two 0-to-1 transitions, one 1-to-0 transition,
and the hooks ran exactly that often. -/
theorem baseObservable_hooks_count_transitions_witness :
    BaseObservable.nonRedundant ([] : List Nat)
      [.sub 5, .unsub (some 5), .sub 5] = true ∧
    (BaseObservable.applyOps (BaseObservable.initial Nat)
        [.sub 5, .unsub (some 5), .sub 5]).subscribeFirstCalls
      = BaseObservable.transitionsUp [] [.sub 5, .unsub (some 5), .sub 5] ∧
    (BaseObservable.applyOps (BaseObservable.initial Nat)
        [.sub 5, .unsub (some 5), .sub 5]).unsubscribeLastCalls
      = BaseObservable.transitionsDown [] [.sub 5, .unsub (some 5), .sub 5] := by
  refine ⟨by decide, ?_⟩
  exact baseObservable_hooks_count_transitions
    [.sub 5, .unsub (some 5), .sub 5] (by decide)

/-- Embedding of the `while (low < high)` loop of `sortedIndex`.  The
loop runs while `low < high`; each iteration either narrows the interval
or, when the comparator reports equality at the probed midpoint
`(low + high) >>> 1`, returns that midpoint (the source writes
`low = high = mid` and falls out of the loop returning `high = mid`).
The structural `fuel` bounds the number of iterations; each iteration
strictly shrinks `high - low`, so any `fuel ≥ high - low` reproduces the
loop exactly (the out-of-fuel branch is never reached). -/
def sortedIndexGo {T : Type} (comparator : T → T → Int) (array : List T) (value : T) :
    Nat → Nat → Nat → Nat
  | 0, _, high => high
  | fuel + 1, low, high =>
    if low < high then
      let mid := (low + high) / 2
      let cmpResult := comparator value (array.getD mid value)
      if 0 < cmpResult then sortedIndexGo comparator array value fuel (mid + 1) high
      else if cmpResult < 0 then sortedIndexGo comparator array value fuel low mid
      else mid
    else high

/-- Embedding of `sortedIndex(array, value, comparator)`: binary search
over `[0, array.length)`.  `array.length` iterations always suffice. -/
def sortedIndex {T : Type} (array : List T) (value : T) (comparator : T → T → Int) : Nat :=
  sortedIndexGo comparator array value (array.length + 1) 0 array.length

/-- Claim C6's counterexample: on the sorted array `[5, 5]` with value
`5` and the usual difference comparator, `sortedIndex` returns `1`, yet
the element at index `0` already compares equal to the value — the
returned index is a matching index, but not the leftmost one.  (The
equality branch `low = high = mid` stops at the first probed midpoint
instead of continuing the search to the left.) -/
theorem sortedIndex_not_leftmost :
    sortedIndex [(5 : Int), 5] 5 (fun a b => a - b) = 1 ∧
    (fun (a b : Int) => a - b) 5 (([(5 : Int), 5]).getD 0 5) = 0 := by
  constructor
  · rfl
  · rfl

theorem sortedIndexGo_valid {T : Type} (comparator : T → T → Int) (array : List T) (value : T)
    (hsign : ∀ j, j < array.length → ∀ i, i ≤ j →
      (0 < comparator value (array.getD j value) → 0 < comparator value (array.getD i value)) ∧
      (comparator value (array.getD i value) < 0 → comparator value (array.getD j value) < 0)) :
    ∀ fuel low high, high - low ≤ fuel → low ≤ high → high ≤ array.length →
      (∀ j, j < low → 0 < comparator value (array.getD j value)) →
      (∀ j, high ≤ j → j < array.length → comparator value (array.getD j value) < 0) →
      sortedIndexGo comparator array value fuel low high ≤ array.length ∧
      (∀ j, j < sortedIndexGo comparator array value fuel low high →
        0 ≤ comparator value (array.getD j value)) ∧
      (∀ j, sortedIndexGo comparator array value fuel low high ≤ j → j < array.length →
        comparator value (array.getD j value) ≤ 0) := by
  intro fuel
  induction fuel with
  | zero =>
    intro low high hfuel hlh hhlen hlow hhigh
    have : high = low := by omega
    subst this
    rw [sortedIndexGo]
    exact ⟨hhlen, fun j hj => le_of_lt (hlow j hj), fun j hj hjlen => le_of_lt (hhigh j hj hjlen)⟩
  | succ fuel ih =>
    intro low high hfuel hlh hhlen hlow hhigh
    rw [sortedIndexGo]
    by_cases hlt : low < high
    · simp only [hlt, if_pos]
      have hmidlow : low ≤ (low + high) / 2 := by omega
      have hmidhigh : (low + high) / 2 < high := by omega
      by_cases hpos : 0 < comparator value (array.getD ((low + high) / 2) value)
      · simp only [hpos, if_pos]
        apply ih ((low + high) / 2 + 1) high (by omega) (by omega) hhlen
        · intro j hj
          by_cases hjmid : j ≤ (low + high) / 2
          · exact (hsign ((low + high) / 2) (by omega) j hjmid).1 hpos
          · exact hlow j (by omega)
        · exact hhigh
      · simp only [hpos, if_neg, if_false]
        by_cases hneg : comparator value (array.getD ((low + high) / 2) value) < 0
        · simp only [hneg, if_pos]
          apply ih low ((low + high) / 2) (by omega) (by omega) (by omega) hlow
          intro j hj hjlen
          exact (hsign j hjlen ((low + high) / 2) hj).2 hneg
        · simp only [hneg, if_neg, if_false]
          have hzero : comparator value (array.getD ((low + high) / 2) value) = 0 := by omega
          refine ⟨by omega, ?_, ?_⟩
          · intro j hj
            by_cases hjlow : j < low
            · exact le_of_lt (hlow j hjlow)
            · by_contra hcon
              push_neg at hcon
              have := (hsign ((low + high) / 2) (by omega) j (by omega)).2 (by omega)
              omega
          · intro j hj hjlen
            by_contra hcon
            push_neg at hcon
            have := (hsign j hjlen ((low + high) / 2) hj).1 (by omega)
            omega
    · simp only [hlt, if_neg, if_false]
      have : high = low := by omega
      subst this
      exact ⟨hhlen, fun j hj => le_of_lt (hlow j hj), fun j hj hjlen => le_of_lt (hhigh j hj hjlen)⟩

/-- The amended claim C6: for an array whose elements are ordered with
respect to the comparator around the searched value (the sign of
`comparator(value, array[j])` is non-increasing in `j`: positive entries
precede the zero entries, which precede the negative ones — exactly what
"array sorted per the comparator" gives), `sortedIndex` returns a valid
insertion index `r ≤ length`: every element before `r` compares
greater-or-equal (`comparator(value, el) ≥ 0`) and every element from `r`
on compares less-or-equal, so inserting the value at `r` keeps the array
ordered.  The returned index is however not always the leftmost matching
index when several elements compare equal: see
`sortedIndex_not_leftmost`. -/
theorem sortedIndex_valid_insertion {T : Type} (array : List T) (value : T)
    (comparator : T → T → Int)
    (hsign : ∀ j, j < array.length → ∀ i, i ≤ j →
      (0 < comparator value (array.getD j value) → 0 < comparator value (array.getD i value)) ∧
      (comparator value (array.getD i value) < 0 → comparator value (array.getD j value) < 0)) :
    sortedIndex array value comparator ≤ array.length ∧
    (∀ j, j < sortedIndex array value comparator →
      0 ≤ comparator value (array.getD j value)) ∧
    (∀ j, sortedIndex array value comparator ≤ j → j < array.length →
      comparator value (array.getD j value) ≤ 0) := by
  exact sortedIndexGo_valid comparator array value hsign (array.length + 1) 0 array.length
    (by omega) (by omega) (le_refl _) (by omega) (by omega)

/-- Witness for the amended claim C6: searching the strictly sorted array
`[1, 3, 5]` for `4` returns `2`, the unique valid insertion point. -/
theorem sortedIndex_valid_insertion_witness :
    (∀ j, j < ([(1 : Int), 3, 5]).length → ∀ i, i ≤ j →
      (0 < (fun (a b : Int) => a - b) 4 (([(1 : Int), 3, 5]).getD j 4) →
        0 < (fun (a b : Int) => a - b) 4 (([(1 : Int), 3, 5]).getD i 4)) ∧
      ((fun (a b : Int) => a - b) 4 (([(1 : Int), 3, 5]).getD i 4) < 0 →
        (fun (a b : Int) => a - b) 4 (([(1 : Int), 3, 5]).getD j 4) < 0)) ∧
    sortedIndex [(1 : Int), 3, 5] 4 (fun a b => a - b) ≤ ([(1 : Int), 3, 5]).length ∧
    (∀ j, j < sortedIndex [(1 : Int), 3, 5] 4 (fun a b => a - b) →
      0 ≤ (fun (a b : Int) => a - b) 4 (([(1 : Int), 3, 5]).getD j 4)) ∧
    (∀ j, sortedIndex [(1 : Int), 3, 5] 4 (fun a b => a - b) ≤ j → j < ([(1 : Int), 3, 5]).length →
      (fun (a b : Int) => a - b) 4 (([(1 : Int), 3, 5]).getD j 4) ≤ 0) := by
  have hsign : ∀ j, j < ([(1 : Int), 3, 5]).length → ∀ i, i ≤ j →
      (0 < (fun (a b : Int) => a - b) 4 (([(1 : Int), 3, 5]).getD j 4) →
        0 < (fun (a b : Int) => a - b) 4 (([(1 : Int), 3, 5]).getD i 4)) ∧
      ((fun (a b : Int) => a - b) 4 (([(1 : Int), 3, 5]).getD i 4) < 0 →
        (fun (a b : Int) => a - b) 4 (([(1 : Int), 3, 5]).getD j 4) < 0) := by
    intro j hj i hij
    have hj3 : j < 3 := by simpa using hj
    interval_cases j <;> interval_cases i <;> decide
  exact ⟨hsign, sortedIndex_valid_insertion [(1 : Int), 3, 5] 4 (fun a b => a - b) hsign⟩

/-- Embedding of `findAndUpdateInArray(predicate, array, observable,
updater)`, fusing `array.findIndex(predicate)` with the subsequent
`array[index]` access into one scan (`i` is the index of the current
head).  The updater's `false` sentinel is `Option.none`, a payload is
`Option.some`.  The result records the returned boolean, the list of
values the updater was invoked on (in call order), and the list of
`emitUpdate(index, value, params)` events emitted. -/
def findAndUpdateGo {T P : Type} (predicate : T → Bool) (updater : T → Option P)
    (i : Nat) : List T → Bool × List T × List (Nat × T × P)
  | [] => (false, [], [])
  | value :: rest =>
    if predicate value then
      (true, [value],
        match updater value with
        | some params => [(i, value, params)]
        | none => [])
    else findAndUpdateGo predicate updater (i + 1) rest

/-- Embedding of `findAndUpdateInArray` applied to the whole array. -/
def findAndUpdateInArray {T P : Type} (predicate : T → Bool) (array : List T)
    (updater : T → Option P) : Bool × List T × List (Nat × T × P) :=
  findAndUpdateGo predicate updater 0 array

theorem findAndUpdateGo_spec {T P : Type} (predicate : T → Bool) (updater : T → Option P)
    (array : List T) : ∀ i,
    (findAndUpdateGo predicate updater i array).1 = array.any predicate ∧
    (findAndUpdateGo predicate updater i array).2.1 = (array.find? predicate).toList ∧
    (findAndUpdateGo predicate updater i array).2.2 =
      (match array.find? predicate with
       | some value =>
         (match updater value with
          | some params => [(i + array.findIdx predicate, value, params)]
          | none => [])
       | none => []) := by
  induction array with
  | nil => intro i; simp [findAndUpdateGo]
  | cons value rest ih =>
    intro i
    rw [findAndUpdateGo]
    cases hp : predicate value with
    | true =>
      simp [hp, List.find?_cons, List.findIdx_cons]
    | false =>
      simp only [Bool.false_eq_true, if_false, List.any_cons, hp, Bool.false_or,
        List.find?_cons, List.findIdx_cons, cond_false]
      obtain ⟨h1, h2, h3⟩ := ih (i + 1)
      refine ⟨h1, h2, ?_⟩
      rw [h3]
      have harith : i + 1 + rest.findIdx predicate = i + (rest.findIdx predicate + 1) := by
        omega
      simp only [harith]

/-- Claim C7: `findAndUpdateInArray` returns true iff some element of the
array satisfies the predicate; the updater is invoked at most once and
only on the first satisfying element (`List.find?`); exactly one update
event is emitted iff the updater returns a payload rather than the
`false` sentinel, and that event carries the first satisfying element's
index (`List.findIdx`), the element, and the updater's payload.  The
boolean result does not depend on whether an event was emitted. -/
theorem findAndUpdateInArray_spec {T P : Type} (predicate : T → Bool) (array : List T)
    (updater : T → Option P) :
    (findAndUpdateInArray predicate array updater).1 = array.any predicate ∧
    (findAndUpdateInArray predicate array updater).2.1 = (array.find? predicate).toList ∧
    (findAndUpdateInArray predicate array updater).2.2 =
      (match array.find? predicate with
       | some value =>
         (match updater value with
          | some params => [(array.findIdx predicate, value, params)]
          | none => [])
       | none => []) := by
  obtain ⟨h1, h2, h3⟩ := findAndUpdateGo_spec predicate updater array 0
  refine ⟨h1, h2, ?_⟩
  rw [findAndUpdateInArray, h3]
  simp only [Nat.zero_add]

/-- One step of the trace of `ApplyMap.onSubscribeFirst`: the
subscription to the source, or one invocation of the apply callback with
a key, a value and whether a `params` argument was passed. -/
inductive ApplyStep (K V : Type) where
  | subscribeSource
  | applyCall (k : K) (v : V) (withParams : Bool)
  deriving DecidableEq, Repr

/-- Embedding of `ApplyMap.applyOnce`: invoke the callback on every
`(key, value)` entry of the source, in iteration order, with no `params`
argument. -/
def applyOnce {K V : Type} (source : List (K × V)) : List (ApplyStep K V) :=
  source.map fun e => .applyCall e.1 e.2 false

/-- Embedding of `ApplyMap.onSubscribeFirst` as the trace of its side
effects, in order: it subscribes to the source, then, if an apply
callback is configured, replays it over the source via `applyOnce`
(`super.onSubscribeFirst()` has an empty body). -/
def applyMapOnSubscribeFirst {K V : Type} (source : List (K × V)) (hasApply : Bool) :
    List (ApplyStep K V) :=
  .subscribeSource :: (if hasApply then applyOnce source else [])

/-- Claim C10: on its first subscription, an `ApplyMap` with a configured
callback first subscribes to its source and then invokes the callback
exactly once per current source entry (counted with multiplicity), always
without a `params` argument, before `onSubscribeFirst` returns; with no
callback configured, the trace is the bare source subscription and no
callback invocation occurs. -/
theorem applyMap_onSubscribeFirst_spec {K V : Type} [DecidableEq K] [DecidableEq V]
    (source : List (K × V)) :
    (applyMapOnSubscribeFirst source true).head? = some .subscribeSource ∧
    (∀ k v, (applyMapOnSubscribeFirst source true).count (.applyCall k v false)
        = source.count (k, v)) ∧
    (∀ k v, ApplyStep.applyCall k v true ∉ applyMapOnSubscribeFirst source true) ∧
    applyMapOnSubscribeFirst source false = [.subscribeSource] := by
  refine ⟨rfl, ?_, ?_, rfl⟩
  · intro k v
    rw [applyMapOnSubscribeFirst, if_pos rfl, applyOnce]
    have hpt : ∀ e : K × V,
        ((ApplyStep.applyCall e.1 e.2 false : ApplyStep K V) == .applyCall k v false)
          = (e == (k, v)) := by
      intro e
      by_cases h : e = (k, v)
      · subst h; simp
      · have h1 : (e == (k, v)) = false := by simpa using h
        have h2 : ((ApplyStep.applyCall e.1 e.2 false : ApplyStep K V)
            == .applyCall k v false) = false := by
          simp only [beq_eq_false_iff_ne, ne_eq, ApplyStep.applyCall.injEq]
          intro hc
          exact h (Prod.ext hc.1 hc.2.1)
        rw [h1, h2]
    have hcount : ∀ l : List (K × V),
        (l.map fun e => ApplyStep.applyCall (K := K) (V := V) e.1 e.2 false).count
            (.applyCall k v false) = l.count (k, v) := by
      intro l
      induction l with
      | nil => rfl
      | cons e t ih =>
        rw [List.map_cons, List.count_cons, List.count_cons, ih, hpt e]
    rw [List.count_cons]
    simp only [show ((ApplyStep.subscribeSource : ApplyStep K V)
        == ApplyStep.applyCall k v false) = false from by simp,
      Bool.false_eq_true, if_false, Nat.add_zero]
    exact hcount source
  · intro k v hmem
    rw [applyMapOnSubscribeFirst, if_pos rfl, applyOnce] at hmem
    rcases List.mem_cons.mp hmem with h | h
    · cases h
    · obtain ⟨e, _, he⟩ := List.mem_map.mp h
      cases he

/-- A source-list event as delivered to a `FilteredList` handler:
`onAdd(idx, value)`, `onRemove(idx, value)`, `onUpdate(idx, value,
params)`, `onMove(from, to, value)` or `onReset()`.  A reset carries the
source's new wholesale contents. -/
inductive ListEvent (V : Type) where
  | add (idx : Nat) (v : V)
  | remove (idx : Nat) (v : V)
  | update (idx : Nat) (v : V)
  | move (fromIdx toIdx : Nat) (v : V)
  | reset (contents : List V)
  deriving DecidableEq, Repr

/-- Whether an event is a reset. -/
def ListEvent.isReset {V : Type} : ListEvent V → Bool
  | .reset _ => true
  | _ => false

/-- The source list's own transition for an event: the leaf collection
mutates its contents and then notifies its subscribers, so handlers
observe the post-event source. -/
def applySourceEvent {V : Type} : List V → ListEvent V → List V
  | src, .add idx v => src.insertIdx idx v
  | src, .remove idx _ => src.eraseIdx idx
  | src, .update idx v => src.set idx v
  | src, .move fromIdx toIdx v => (src.eraseIdx fromIdx).insertIdx toIdx v
  | _, .reset contents => contents

/-- An event is well formed for the pre-event source when its indices are
in range and the value it carries for a remove or move is the element
actually at that index — exactly what the list event contract guarantees
("indices/keys in events are valid at time of emission"). -/
def wfEvent {V : Type} [DecidableEq V] (src : List V) : ListEvent V → Bool
  | .add idx _ => decide (idx ≤ src.length)
  | .remove idx v => decide (idx < src.length) && decide (src[idx]? = some v)
  | .update idx _ => decide (idx < src.length)
  | .move fromIdx toIdx v =>
      decide (fromIdx < src.length) && decide (toIdx + 1 ≤ src.length)
        && decide (src[fromIdx]? = some v)
  | .reset _ => true

/-- A sequence of events is well formed when each event is well formed
for the source state it is emitted against. -/
def wfEvents {V : Type} [DecidableEq V] : List V → List (ListEvent V) → Bool
  | _, [] => true
  | src, e :: rest => wfEvent src e && wfEvents (applySourceEvent src e) rest

/-- No event of the sequence is a reset. -/
def noResets {V : Type} (events : List (ListEvent V)) : Bool :=
  events.all fun e => !e.isReset

namespace FilteredList

/-- The inclusion bit the filter computes for each source element, in
source order, starting at source index `i`. -/
def computeMaskGo {V : Type} (P : V → Nat → Bool) (i : Nat) : List V → List Bool
  | [] => []
  | v :: rest => P v i :: computeMaskGo P (i + 1) rest

/-- The inclusion mask a full evaluation of the filter produces:
`mask[i] = P(src[i], i)`. -/
def computeMask {V : Type} (P : V → Nat → Bool) (src : List V) : List Bool :=
  computeMaskGo P 0 src

/-- Embedding of `_reapplyFilter` with a filter configured, acting on the
mask: the loop writes `this._included[i] = filter(value, i)` for every
index `i` of the current source, extending the array if it is shorter and
leaving any entries beyond the source's length untouched. -/
def reapplyMask {V : Type} (P : V → Nat → Bool) (src : List V) (mask : List Bool) :
    List Bool :=
  computeMask P src ++ mask.drop src.length

/-- Embedding of the `FilteredList` handlers' effect on the inclusion
mask, with a filter configured.  `postSource` is the source's post-event
contents (what `this._source` holds while the handler runs).
`onAdd` splices the new bit in and, only when the element is included,
re-runs `_reapplyFilter` (an excluded add returns early); `onRemove` and
`onMove` splice and then always re-run `_reapplyFilter`; `onUpdate`
writes the recomputed bit in place; `onReset` re-runs `_reapplyFilter`
against the new contents without resizing the mask. -/
def stepMask {V : Type} (P : V → Nat → Bool) (postSource : List V) (mask : List Bool) :
    ListEvent V → List Bool
  | .add idx v =>
    let included := P v idx
    let spliced := mask.insertIdx idx included
    if included then reapplyMask P postSource spliced else spliced
  | .remove idx _ => reapplyMask P postSource (mask.eraseIdx idx)
  | .update idx v => mask.set idx (P v idx)
  | .move fromIdx toIdx v =>
    reapplyMask P postSource ((mask.eraseIdx fromIdx).insertIdx toIdx (P v toIdx))
  | .reset _ => reapplyMask P postSource mask

/-- One delivered event: the source moves to its post-event contents and
the filtered list's handler updates the mask. -/
def step {V : Type} (P : V → Nat → Bool) (st : List V × List Bool) (e : ListEvent V) :
    List V × List Bool :=
  (applySourceEvent st.1 e, stepMask P (applySourceEvent st.1 e) st.2 e)

/-- Deliver a sequence of source events in order.  The initial state of a
freshly subscribed `FilteredList` with an active filter is
`(src, computeMask P src)`: `onSubscribeFirst` runs `_reapplyFilter(true)`
which builds the mask silently. -/
def runEvents {V : Type} (P : V → Nat → Bool) (st : List V × List Bool)
    (events : List (ListEvent V)) : List V × List Bool :=
  events.foldl (step P) st

/-- Embedding of the `length` getter's loop over a non-null mask: count
the true bits with `forEach`. -/
def flLength (mask : List Bool) : Nat :=
  mask.foldl (fun count included => if included then count + 1 else count) 0

/-- Embedding of `FilterIterator.next` run to exhaustion over a non-null
mask: walk the source's iterator, keeping the element at source index
`i` iff `this._included[i]` is true (an out-of-range read yields
`undefined`, which is falsy). -/
def flIterGo {V : Type} (mask : List Bool) (i : Nat) : List V → List V
  | [] => []
  | v :: rest =>
    if mask.getD i false then v :: flIterGo mask (i + 1) rest
    else flIterGo mask (i + 1) rest

/-- The source elements that currently satisfy the predicate, in source
order, starting at source index `i` — the specification side of claims
C3 and C9. -/
def satisfyingGo {V : Type} (P : V → Nat → Bool) (i : Nat) : List V → List V
  | [] => []
  | v :: rest =>
    if P v i then v :: satisfyingGo P (i + 1) rest else satisfyingGo P (i + 1) rest

/-- The source elements that currently satisfy the predicate. -/
def satisfying {V : Type} (P : V → Nat → Bool) (src : List V) : List V :=
  satisfyingGo P 0 src

/-- Embedding of the `length` getter including the null-mask path: with
no filter configured the mask `_included` is null and
`this._included!.forEach(...)` throws a TypeError; the thrown outcome is
`none`. -/
def lengthResult (included : Option (List Bool)) : Option Nat :=
  match included with
  | none => none
  | some mask => some (flLength mask)

/-- Embedding of iterating the filtered list including the null-mask
path: `FilterIterator` is constructed with `this._included!`; with a null
mask the first `next()` that reaches `this._included[idx]` throws a
TypeError (`none`), which happens as soon as the source yields an
element.  An empty source returns done before touching the mask. -/
def iterateResult {V : Type} (included : Option (List Bool)) (source : List V) :
    Option (List V) :=
  match included, source with
  | none, [] => some []
  | none, _ :: _ => none
  | some mask, src => some (flIterGo mask 0 src)

/-- Embedding of `_reapplyFilter` with no filter configured, acting on
the mask: a null mask returns immediately, a non-null mask emits adds for
the previously excluded elements and becomes null.  Either way the mask
is null afterwards, so after `onSubscribeFirst` (which runs
`_reapplyFilter(true)`) an unfiltered list has a null mask. -/
def reapplyMaskNoFilter (included : Option (List Bool)) : Option (List Bool) :=
  match included with
  | none => none
  | some _ => none

end FilteredList

namespace FilteredList

theorem computeMaskGo_length {V : Type} (P : V → Nat → Bool) (src : List V) :
    ∀ i, (computeMaskGo P i src).length = src.length := by
  induction src with
  | nil => intro i; rfl
  | cons v rest ih =>
    intro i
    rw [computeMaskGo, List.length_cons, List.length_cons, ih (i + 1)]

theorem computeMask_length {V : Type} (P : V → Nat → Bool) (src : List V) :
    (computeMask P src).length = src.length :=
  computeMaskGo_length P src 0

theorem reapplyMask_of_length_eq {V : Type} (P : V → Nat → Bool) (src : List V)
    (mask : List Bool) (h : mask.length = src.length) :
    reapplyMask P src mask = computeMask P src := by
  rw [reapplyMask, List.drop_eq_nil_of_le (by omega), List.append_nil]

theorem insertIdx_map {A B : Type} (f : A → B) :
    ∀ (n : Nat) (a : A) (l : List A),
      (l.insertIdx n a).map f = (l.map f).insertIdx n (f a) := by
  intro n
  induction n with
  | zero => intro a l; rfl
  | succ n ih =>
    intro a l
    cases l with
    | nil => rfl
    | cons x xs =>
      rw [List.insertIdx_succ_cons, List.map_cons, List.map_cons, ih,
        List.insertIdx_succ_cons]

theorem eraseIdx_map {A B : Type} (f : A → B) :
    ∀ (l : List A) (n : Nat), (l.eraseIdx n).map f = (l.map f).eraseIdx n := by
  intro l
  induction l with
  | nil => intro n; rfl
  | cons x xs ih =>
    intro n
    cases n with
    | zero => rfl
    | succ n =>
      rw [List.eraseIdx_cons_succ, List.map_cons, List.map_cons,
        List.eraseIdx_cons_succ, ih]

theorem computeMaskGo_eq_map {V : Type} (P : V → Nat → Bool)
    (HP : ∀ v i j, P v i = P v j) (src : List V) :
    ∀ i, computeMaskGo P i src = src.map fun v => P v 0 := by
  induction src with
  | nil => intro i; rfl
  | cons v rest ih =>
    intro i
    rw [computeMaskGo, List.map_cons, ih (i + 1), HP v i 0]

theorem computeMask_eq_map {V : Type} (P : V → Nat → Bool)
    (HP : ∀ v i j, P v i = P v j) (src : List V) :
    computeMask P src = src.map fun v => P v 0 :=
  computeMaskGo_eq_map P HP src 0

theorem stepMask_preserves {V : Type} [DecidableEq V] (P : V → Nat → Bool)
    (HP : ∀ v i j, P v i = P v j) (src : List V) (e : ListEvent V)
    (hwf : wfEvent src e = true) (hnr : e.isReset = false) :
    stepMask P (applySourceEvent src e) (computeMask P src) e
      = computeMask P (applySourceEvent src e) := by
  cases e with
  | add idx v =>
    have hidx : idx ≤ src.length := by simpa [wfEvent] using hwf
    have hmidx : idx ≤ (computeMask P src).length := by rw [computeMask_length]; exact hidx
    have hsplen : ((computeMask P src).insertIdx idx (P v idx)).length
        = (src.insertIdx idx v).length := by
      rw [List.length_insertIdx idx _ hmidx, List.length_insertIdx idx _ hidx,
        computeMask_length]
    have hspliced : (computeMask P src).insertIdx idx (P v idx)
        = computeMask P (src.insertIdx idx v) := by
      rw [computeMask_eq_map P HP, computeMask_eq_map P HP, insertIdx_map, HP v idx 0]
    show (if P v idx
          then reapplyMask P (src.insertIdx idx v)
            ((computeMask P src).insertIdx idx (P v idx))
          else (computeMask P src).insertIdx idx (P v idx))
        = computeMask P (src.insertIdx idx v)
    rw [hspliced]
    rw [reapplyMask_of_length_eq _ _ _ (by rw [computeMask_length])]
    exact ite_self _
  | remove idx v =>
    rw [stepMask, applySourceEvent]
    apply reapplyMask_of_length_eq
    rw [List.length_eraseIdx, List.length_eraseIdx, computeMask_length]
  | update idx v =>
    rw [stepMask, applySourceEvent]
    rw [computeMask_eq_map P HP, computeMask_eq_map P HP, List.map_set, HP v idx 0]
  | move fromIdx toIdx v =>
    rw [wfEvent, Bool.and_eq_true, Bool.and_eq_true] at hwf
    have hfrom : fromIdx < src.length := of_decide_eq_true hwf.1.1
    have hto : toIdx + 1 ≤ src.length := of_decide_eq_true hwf.1.2
    rw [stepMask, applySourceEvent]
    apply reapplyMask_of_length_eq
    have herase : ((computeMask P src).eraseIdx fromIdx).length = src.length - 1 := by
      rw [List.length_eraseIdx, computeMask_length]
      simp [hfrom]
    have herasesrc : (src.eraseIdx fromIdx).length = src.length - 1 := by
      rw [List.length_eraseIdx]
      simp [hfrom]
    rw [List.length_insertIdx toIdx _ (by omega), List.length_insertIdx toIdx _ (by omega),
      herase, herasesrc]
  | reset contents => simp [ListEvent.isReset] at hnr

theorem runEvents_eq {V : Type} [DecidableEq V] (P : V → Nat → Bool)
    (HP : ∀ v i j, P v i = P v j) :
    ∀ (events : List (ListEvent V)) (src : List V),
      wfEvents src events = true → noResets events = true →
      runEvents P (src, computeMask P src) events
        = (events.foldl applySourceEvent src,
           computeMask P (events.foldl applySourceEvent src)) := by
  intro events
  induction events with
  | nil => intro src _ _; rfl
  | cons e rest ih =>
    intro src hwf hnr
    rw [wfEvents, Bool.and_eq_true] at hwf
    have hnre : e.isReset = false ∧ noResets rest = true := by
      rw [noResets, List.all_cons, Bool.and_eq_true] at hnr
      exact ⟨by simpa using hnr.1, hnr.2⟩
    have hstep : step P (src, computeMask P src) e
        = (applySourceEvent src e, computeMask P (applySourceEvent src e)) := by
      rw [step]
      exact congrArg _ (stepMask_preserves P HP src e hwf.1 hnre.1)
    rw [runEvents, List.foldl_cons, hstep]
    rw [List.foldl_cons]
    exact ih (applySourceEvent src e) hwf.2 hnre.2

theorem flLength_foldl_shift (mask : List Bool) :
    ∀ c, mask.foldl (fun count included => if included then count + 1 else count) c
      = c + flLength mask := by
  induction mask with
  | nil => intro c; simp [flLength]
  | cons b rest ih =>
    intro c
    rw [flLength, List.foldl_cons, List.foldl_cons, ih, ih (if b then 0 + 1 else 0)]
    cases b
    · simp
    · simp
      omega

theorem flLength_computeMaskGo {V : Type} (P : V → Nat → Bool) (src : List V) :
    ∀ i, flLength (computeMaskGo P i src) = (satisfyingGo P i src).length := by
  induction src with
  | nil => intro i; rfl
  | cons v rest ih =>
    intro i
    rw [computeMaskGo, satisfyingGo, flLength, List.foldl_cons, flLength_foldl_shift]
    cases hp : P v i with
    | false => simp [ih (i + 1)]
    | true =>
      simp [ih (i + 1)]
      omega

theorem flIterGo_of_mask_agrees {V : Type} (P : V → Nat → Bool) (src : List V) :
    ∀ i (mask : List Bool),
      (∀ j, mask[i + j]? = (computeMaskGo P i src)[j]?) →
      flIterGo mask i src = satisfyingGo P i src := by
  induction src with
  | nil => intro i mask _; rfl
  | cons v rest ih =>
    intro i mask hagree
    have hhead : mask.getD i false = P v i := by
      have h0 := hagree 0
      rw [Nat.add_zero, computeMaskGo, List.getElem?_cons_zero] at h0
      rw [List.getD_eq_getElem?_getD, h0]
      rfl
    have htail : ∀ j, mask[i + 1 + j]? = (computeMaskGo P (i + 1) rest)[j]? := by
      intro j
      have := hagree (j + 1)
      rw [computeMaskGo, List.getElem?_cons_succ] at this
      have harith : i + 1 + j = i + (j + 1) := by omega
      rw [harith]
      exact this
    rw [flIterGo, satisfyingGo, hhead, ih (i + 1) mask htail]

theorem flIterGo_computeMask {V : Type} (P : V → Nat → Bool) (src : List V) :
    flIterGo (computeMask P src) 0 src = satisfying P src := by
  apply flIterGo_of_mask_agrees
  intro j
  rw [Nat.zero_add]
  rfl

end FilteredList

/-- Claim C3's counterexample, two concrete traces.  First, a reset that
shrinks the source: with the always-true predicate over source `[0]`, a
subscribed `FilteredList` has mask `[true]`; after the source resets to
`[]`, `_reapplyFilter` writes no entries and never truncates the mask, so
the stale bit survives and `length` reports `1` although no source
element (of zero) satisfies the predicate.  Second, an add of an excluded
element under an index-dependent predicate `P(v, i) = (i == 1)` over
source `[10]` (mask `[false]`): `onAdd(0, 20)` splices in `false` and
returns early without `_reapplyFilter`, so element `10`, now at index 1
and satisfying the predicate, keeps its stale `false` bit — `length`
reports `0` although one element satisfies the predicate. -/
theorem filteredList_length_counterexample :
    FilteredList.flLength
        (FilteredList.runEvents (fun (_ : Nat) (_ : Nat) => true)
          ([0], FilteredList.computeMask (fun _ _ => true) [0]) [.reset []]).2 = 1 ∧
    (FilteredList.satisfying (fun (_ : Nat) (_ : Nat) => true)
        (FilteredList.runEvents (fun (_ : Nat) (_ : Nat) => true)
          ([0], FilteredList.computeMask (fun _ _ => true) [0]) [.reset []]).1).length = 0 ∧
    FilteredList.flLength
        (FilteredList.runEvents (fun (_ : Nat) (i : Nat) => i == 1)
          ([10], FilteredList.computeMask (fun _ i => i == 1) [10]) [.add 0 20]).2 = 0 ∧
    (FilteredList.satisfying (fun (_ : Nat) (i : Nat) => i == 1)
        (FilteredList.runEvents (fun (_ : Nat) (i : Nat) => i == 1)
          ([10], FilteredList.computeMask (fun _ i => i == 1) [10]) [.add 0 20]).1).length
      = 1 := by
  refine ⟨by decide, by decide, by decide, by decide⟩

/-- The amended claim C3: for a `FilteredList` with an active predicate
that depends only on the element (not on its index) and a subscriber
attached, after any well-formed sequence of add, remove, update and move
source events (no reset), `length` equals the number of source elements
currently satisfying the predicate (the popcount of the inclusion mask),
and iteration yields exactly the source elements satisfying the
predicate, in source order.  The original claim's "any sequence of source
events" fails for shrinking resets, and index-dependent predicates fail
on adds of excluded elements: see `filteredList_length_counterexample`. -/
theorem filteredList_length_iteration {V : Type} [DecidableEq V]
    (P : V → Nat → Bool) (HP : ∀ v i j, P v i = P v j)
    (src : List V) (events : List (ListEvent V))
    (hwf : wfEvents src events = true) (hnr : noResets events = true) :
    FilteredList.flLength
        (FilteredList.runEvents P (src, FilteredList.computeMask P src) events).2
      = (FilteredList.satisfying P
          (FilteredList.runEvents P (src, FilteredList.computeMask P src) events).1).length ∧
    FilteredList.flIterGo
        (FilteredList.runEvents P (src, FilteredList.computeMask P src) events).2 0
        (FilteredList.runEvents P (src, FilteredList.computeMask P src) events).1
      = FilteredList.satisfying P
          (FilteredList.runEvents P (src, FilteredList.computeMask P src) events).1 := by
  rw [FilteredList.runEvents_eq P HP events src hwf hnr]
  constructor
  · exact FilteredList.flLength_computeMaskGo P _ 0
  · exact FilteredList.flIterGo_computeMask P _

/-- Witness for the amended claim C3: the even-number predicate over
source `[1, 2]`, through an add, a remove and an update; the final source
is `[6, 2]`, both elements even, and length and iteration agree. -/
theorem filteredList_length_iteration_witness :
    (∀ (v i j : Nat), (fun (v : Nat) (_ : Nat) => v % 2 == 0) v i
        = (fun (v : Nat) (_ : Nat) => v % 2 == 0) v j) ∧
    wfEvents [1, 2] [.add 1 4, .remove 0 1, .update 0 6] = true ∧
    noResets ([.add 1 4, .remove 0 1, .update 0 6] : List (ListEvent Nat)) = true ∧
    (FilteredList.flLength
        (FilteredList.runEvents (fun (v : Nat) (_ : Nat) => v % 2 == 0)
          ([1, 2], FilteredList.computeMask (fun v _ => v % 2 == 0) [1, 2])
          [.add 1 4, .remove 0 1, .update 0 6]).2
      = (FilteredList.satisfying (fun (v : Nat) (_ : Nat) => v % 2 == 0)
          (FilteredList.runEvents (fun (v : Nat) (_ : Nat) => v % 2 == 0)
            ([1, 2], FilteredList.computeMask (fun v _ => v % 2 == 0) [1, 2])
            [.add 1 4, .remove 0 1, .update 0 6]).1).length ∧
    FilteredList.flIterGo
        (FilteredList.runEvents (fun (v : Nat) (_ : Nat) => v % 2 == 0)
          ([1, 2], FilteredList.computeMask (fun v _ => v % 2 == 0) [1, 2])
          [.add 1 4, .remove 0 1, .update 0 6]).2 0
        (FilteredList.runEvents (fun (v : Nat) (_ : Nat) => v % 2 == 0)
          ([1, 2], FilteredList.computeMask (fun v _ => v % 2 == 0) [1, 2])
          [.add 1 4, .remove 0 1, .update 0 6]).1
      = FilteredList.satisfying (fun (v : Nat) (_ : Nat) => v % 2 == 0)
          (FilteredList.runEvents (fun (v : Nat) (_ : Nat) => v % 2 == 0)
            ([1, 2], FilteredList.computeMask (fun v _ => v % 2 == 0) [1, 2])
            [.add 1 4, .remove 0 1, .update 0 6]).1) := by
  refine ⟨fun v i j => rfl, by decide, by decide, ?_⟩
  exact filteredList_length_iteration (fun (v : Nat) (_ : Nat) => v % 2 == 0)
    (fun v i j => rfl) [1, 2] [.add 1 4, .remove 0 1, .update 0 6] (by decide) (by decide)

/-- Claim C9 is a code bug for its length and iteration parts: with no
filter configured the mask `_included` stays null after subscribing
(`_reapplyFilter` returns immediately, `reapplyMaskNoFilter none =
none`), yet the `length` getter unconditionally runs
`this._included!.forEach(...)` and `FilterIterator` unconditionally reads
`this._included[idx]`, so over the one-element source `[42]` both throw a
TypeError (`none`) instead of reporting length 1 and yielding `[42]` as
the claimed passthrough behaviour requires. -/
theorem filteredList_no_filter_throws :
    FilteredList.reapplyMaskNoFilter none = none ∧
    FilteredList.lengthResult none = none ∧
    FilteredList.iterateResult none [42] = none ∧
    FilteredList.iterateResult (V := Nat) none [] = some [] := by
  refine ⟨rfl, rfl, rfl, rfl⟩

/-- Witness for claim C2 at the specification's key-collision example:
sources `[{"a": 1}, {"a": 2, "b": 3}]` iterate with no duplicate key, as
a sublist of the concatenation, and every key looks up to the
lowest-indexed source's value — indeed `joinedEntries` here is exactly
`[("a", 1), ("b", 3)]`. -/
theorem joinedMap_iteration_first_source_wins_witness :
    ((joinedEntries ([[("a", 1)], [("a", 2), ("b", 3)]] :
        List (List (String × Int)))).map Prod.fst).Nodup ∧
    (joinedEntries ([[("a", 1)], [("a", 2), ("b", 3)]] :
        List (List (String × Int)))).Sublist
      ([[("a", 1)], [("a", 2), ("b", 3)]] : List (List (String × Int))).flatten ∧
    ∀ k, (joinedEntries ([[("a", 1)], [("a", 2), ("b", 3)]] :
        List (List (String × Int)))).lookup k
      = firstLookup ([[("a", 1)], [("a", 2), ("b", 3)]] : List (List (String × Int))) k :=
  joinedMap_iteration_first_source_wins [[("a", 1)], [("a", 2), ("b", 3)]]
